import Mathlib

/-!
Verification of the checkpointed Chudnovsky pi summation engine.

The development shallowly embeds the two Python variants of the engine:
the recurrence-based one (compute_pi_mpmath.py) and the factorial-based
one (pi.py).  High-precision values (mpmath mpf / decimal Decimal) are
modelled as exact rationals; file artifacts are modelled as optional
values in an explicit file-system record.
-/

namespace PiEngine

/-- Constant L = 13591409 from compute_pi_mpmath.py. -/
def L : ℕ := 13591409

/-- The linear coefficient 545140134 appearing inline in the source. -/
def D : ℕ := 545140134

/-- Constant X = 640320 from compute_pi_mpmath.py. -/
def X : ℕ := 640320

/-- X3 = X ** 3 from compute_pi_mpmath.py. -/
def X3 : ℕ := X ^ 3

/-- TERMS_PER_BATCH = 900 from compute_pi_mpmath.py. -/
def TERMS_PER_BATCH : ℕ := 900

/-- The multiplicative update applied to the loop variable a at index i in
chudnovsky_term_recursive: numerator -(6i+1)(2i+1)(6i+5), denominator
(i+1)^3 * X3. -/
def stepFactor (i : ℕ) : ℚ :=
  -(((6 * i + 1) * (2 * i + 1) * (6 * i + 5) : ℕ) : ℚ) /
    (((i + 1) ^ 3 * X3 : ℕ) : ℚ)

/-- The series coefficient a_k of the spec's data model: a_0 = 1 and
a_(k+1) = a_k * -(6k+1)(2k+1)(6k+5) / ((k+1)^3 * 640320^3), exactly the
recurrence implemented by the loops of chudnovsky_term_recursive. -/
def seriesA : ℕ → ℚ
  | 0 => 1
  | k + 1 => seriesA k * stepFactor k

/-- The weighted series term SeriesTerm(i) * (L + D * i) that the engine
accumulates into the running total. -/
def weightedTerm (i : ℕ) : ℚ := seriesA i * ((L : ℚ) + (D : ℚ) * i)

/-- The warm-up loop of chudnovsky_term_recursive: starting from a = 1,
apply the multiplicative recurrence for i in range(start_k). -/
def warmup (start_k : ℕ) : ℚ :=
  (List.range start_k).foldl (fun a i => a * stepFactor i) 1

/-- The body of the accumulation loop of chudnovsky_term_recursive: state is
(total, a); at index i the code does total += a * (L + 545140134 * i) and
then a *= stepFactor i. -/
def accumStep (st : ℚ × ℚ) (i : ℕ) : ℚ × ℚ :=
  (st.1 + st.2 * ((L : ℚ) + 545140134 * (i : ℚ)), st.2 * stepFactor i)

/-- chudnovsky_term_recursive(start_k, end_k) from compute_pi_mpmath.py:
warm up a to index start_k, then accumulate a * (L + 545140134 * i) for
i in range(start_k, end_k), returning the total. -/
def chudnovsky_term_recursive (start_k end_k : ℕ) : ℚ :=
  ((List.range' start_k (end_k - start_k)).foldl accumStep (0, warmup start_k)).1

/-- compute_batch(start_k, batch_size) from compute_pi_mpmath.py. -/
def compute_batch (start_k batch_size : ℕ) : ℚ :=
  chudnovsky_term_recursive start_k (start_k + batch_size)

lemma seriesA_succ (k : ℕ) : seriesA (k + 1) = seriesA k * stepFactor k := rfl

lemma warmup_eq (s : ℕ) : warmup s = seriesA s := by
  induction s with
  | zero => rfl
  | succ m ih =>
    unfold warmup at *
    rw [List.range_succ, List.foldl_append, ih, List.foldl_cons, List.foldl_nil,
      seriesA_succ]

lemma foldl_accumStep (n : ℕ) : ∀ (s : ℕ) (t : ℚ),
    (List.range' s n).foldl accumStep (t, seriesA s)
      = (t + ∑ i in Finset.Ico s (s + n), weightedTerm i, seriesA (s + n)) := by
  induction n with
  | zero =>
    intro s t
    simp
  | succ m ih =>
    intro s t
    rw [List.range'_succ, List.foldl_cons]
    have hstep : accumStep (t, seriesA s) s
        = (t + weightedTerm s, seriesA (s + 1)) := by
      simp [accumStep, weightedTerm, seriesA_succ, D]
    rw [hstep, ih (s + 1) (t + weightedTerm s)]
    have hidx : s + 1 + m = s + (m + 1) := by omega
    rw [hidx, Finset.sum_eq_sum_Ico_succ_bot (by omega : s < s + (m + 1))]
    ring_nf

lemma chudnovsky_term_recursive_spec (s n : ℕ) :
    chudnovsky_term_recursive s (s + n) = ∑ i in Finset.Ico s (s + n), weightedTerm i := by
  unfold chudnovsky_term_recursive
  rw [Nat.add_sub_cancel_left, warmup_eq, foldl_accumStep]
  simp

/-- C2: for every s and n, the batch computation
chudnovsky_term_recursive(s, s + n) (equivalently compute_batch(s, n))
returns the sum of a_i * (L + 545140134 * i) over i in [s, s + n), where
a_i follows the recurrence a_0 = 1,
a_(k+1) = a_k * -(6k+1)(2k+1)(6k+5) / ((k+1)^3 * 640320^3); the warm-up
loop applies exactly s recurrence steps, leaving the multiplicative state
at a_s, and n = 0 yields the additive identity 0. -/
theorem batch_contract (s n : ℕ) :
    chudnovsky_term_recursive s (s + n) = ∑ i in Finset.Ico s (s + n), weightedTerm i
    ∧ compute_batch s n = ∑ i in Finset.Ico s (s + n), weightedTerm i
    ∧ warmup s = seriesA s
    ∧ chudnovsky_term_recursive s s = 0 := by
  refine ⟨chudnovsky_term_recursive_spec s n, chudnovsky_term_recursive_spec s n,
    warmup_eq s, ?_⟩
  unfold chudnovsky_term_recursive
  simp

/-- One scheduler round of compute_pi in compute_pi_mpmath.py: with
batch_size = TERMS_PER_BATCH // CORES, dispatch the sub-ranges
(k + i * batch_size, batch_size) for i in range(CORES), reduce the batch
results by summation, add the batch sum into the total, and advance k by
TERMS_PER_BATCH. -/
def roundStep (cores : ℕ) (st : ℕ × ℚ) : ℕ × ℚ :=
  let batch_size := TERMS_PER_BATCH / cores
  let results := (List.range cores).map (fun i => compute_batch (st.1 + i * batch_size) batch_size)
  (st.1 + TERMS_PER_BATCH, st.2 + results.sum)

/-- r iterations of the while-loop round of compute_pi. -/
def runRounds (cores : ℕ) : ℕ → ℕ × ℚ → ℕ × ℚ
  | 0, st => st
  | r + 1, st => runRounds cores r (roundStep cores st)

/-- The batch descriptor list built by compute_pi:
batches = [(k + i * batch_size, batch_size) for i in range(CORES)]. -/
def batchList (k cores : ℕ) : List (ℕ × ℕ) :=
  (List.range cores).map (fun i => (k + i * (TERMS_PER_BATCH / cores), TERMS_PER_BATCH / cores))

lemma sum_over_batches (f : ℕ → ℚ) (k bs : ℕ) : ∀ W : ℕ,
    ((List.range W).map (fun i => ∑ j in Finset.Ico (k + i * bs) (k + i * bs + bs), f j)).sum
      = ∑ j in Finset.Ico k (k + W * bs), f j := by
  intro W
  induction W with
  | zero => simp
  | succ m ih =>
    rw [List.range_succ, List.map_append, List.sum_append, ih]
    have h1 : k ≤ k + m * bs := by omega
    have h2 : k + m * bs ≤ k + m * bs + bs := by omega
    rw [List.map_singleton, List.sum_singleton,
      Finset.sum_Ico_consecutive f h1 h2]
    have : k + m * bs + bs = k + (m + 1) * bs := by ring
    rw [this]

lemma roundStep_preserves (cores k : ℕ) (hW : 0 < cores)
    (hdvd : TERMS_PER_BATCH % cores = 0) :
    roundStep cores (k, ∑ i in Finset.range k, weightedTerm i)
      = (k + TERMS_PER_BATCH, ∑ i in Finset.range (k + TERMS_PER_BATCH), weightedTerm i) := by
  have hmul : TERMS_PER_BATCH / cores * cores = TERMS_PER_BATCH :=
    Nat.div_mul_cancel (Nat.dvd_of_mod_eq_zero hdvd)
  unfold roundStep
  have hbatch : ∀ i : ℕ,
      compute_batch (k + i * (TERMS_PER_BATCH / cores)) (TERMS_PER_BATCH / cores)
        = ∑ j in Finset.Ico (k + i * (TERMS_PER_BATCH / cores))
            (k + i * (TERMS_PER_BATCH / cores) + TERMS_PER_BATCH / cores), weightedTerm j := by
    intro i
    exact chudnovsky_term_recursive_spec (k + i * (TERMS_PER_BATCH / cores))
      (TERMS_PER_BATCH / cores)
  simp only [hbatch]
  rw [sum_over_batches weightedTerm k (TERMS_PER_BATCH / cores) cores]
  have hc : cores * (TERMS_PER_BATCH / cores) = TERMS_PER_BATCH := by
    rw [Nat.mul_comm]; exact hmul
  rw [hc]
  have h1 : (0 : ℕ) ≤ k := Nat.zero_le k
  have h2 : k ≤ k + TERMS_PER_BATCH := by omega
  rw [Finset.range_eq_Ico]
  simp only [Prod.mk.injEq]
  exact ⟨trivial, Finset.sum_Ico_consecutive weightedTerm h1 h2⟩

lemma runRounds_invariant (cores : ℕ) (hW : 0 < cores)
    (hdvd : TERMS_PER_BATCH % cores = 0) :
    ∀ (r k : ℕ), runRounds cores r (k, ∑ i in Finset.range k, weightedTerm i)
      = (k + r * TERMS_PER_BATCH,
          ∑ i in Finset.range (k + r * TERMS_PER_BATCH), weightedTerm i) := by
  intro r
  induction r with
  | zero => intro k; simp [runRounds]
  | succ m ih =>
    intro k
    show runRounds cores m (roundStep cores (k, ∑ i in Finset.range k, weightedTerm i))
      = _
    rw [roundStep_preserves cores k hW hdvd, ih (k + TERMS_PER_BATCH)]
    have : k + TERMS_PER_BATCH + m * TERMS_PER_BATCH = k + (m + 1) * TERMS_PER_BATCH := by
      ring
    rw [this]

/-- C1: starting from the identity snapshot, after any number r of complete
rounds the in-memory state of compute_pi has progress counter exactly
r * TERMS_PER_BATCH (so k advances only in whole TERMS_PER_BATCH
increments) and running total exactly the sum of
SeriesTerm(i) * (L + D * i) over i in [0, k). -/
theorem running_total_invariant (cores r : ℕ) (hW : 0 < cores)
    (hdvd : TERMS_PER_BATCH % cores = 0) :
    runRounds cores r (0, 0)
      = (r * TERMS_PER_BATCH,
          ∑ i in Finset.range (r * TERMS_PER_BATCH), weightedTerm i) := by
  have h0 : (0 : ℚ) = ∑ i in Finset.range 0, weightedTerm i := by simp
  rw [h0, runRounds_invariant cores hW hdvd r 0]
  simp

/-- Witness for running_total_invariant at cores = 3, r = 2. -/
theorem running_total_invariant_witness :
    0 < 3 ∧ TERMS_PER_BATCH % 3 = 0 ∧
    runRounds 3 2 (0, 0)
      = (2 * TERMS_PER_BATCH,
          ∑ i in Finset.range (2 * TERMS_PER_BATCH), weightedTerm i) :=
  ⟨by decide, by decide, running_total_invariant 3 2 (by decide) (by decide)⟩

lemma batchList_mem (k cores : ℕ) (p : ℕ × ℕ) :
    p ∈ batchList k cores ↔
      ∃ i < cores, p = (k + i * (TERMS_PER_BATCH / cores), TERMS_PER_BATCH / cores) := by
  unfold batchList
  simp [List.mem_map, eq_comm]

/-- C5: for any progress k and worker count with
TERMS_PER_BATCH % cores = 0, one round dispatches exactly cores
sub-ranges, each of TERMS_PER_BATCH / cores terms, which are pairwise
disjoint (in increasing order each ends where no later one starts below)
and whose union is exactly the interval [k, k + TERMS_PER_BATCH): every
index x is covered by some dispatched sub-range iff
k ≤ x < k + TERMS_PER_BATCH. -/
theorem batch_partition (k cores : ℕ) (hW : 0 < cores)
    (hdvd : TERMS_PER_BATCH % cores = 0) :
    (batchList k cores).length = cores
    ∧ (∀ p ∈ batchList k cores, p.2 = TERMS_PER_BATCH / cores)
    ∧ (∀ x : ℕ, (∃ p ∈ batchList k cores, p.1 ≤ x ∧ x < p.1 + p.2)
        ↔ k ≤ x ∧ x < k + TERMS_PER_BATCH)
    ∧ List.Pairwise (fun p q : ℕ × ℕ => p.1 + p.2 ≤ q.1) (batchList k cores) := by
  have hmul : TERMS_PER_BATCH / cores * cores = TERMS_PER_BATCH :=
    Nat.div_mul_cancel (Nat.dvd_of_mod_eq_zero hdvd)
  have hcb : cores * (TERMS_PER_BATCH / cores) = TERMS_PER_BATCH := by
    rw [Nat.mul_comm]; exact hmul
  have hbspos : 0 < TERMS_PER_BATCH / cores := by
    rcases Nat.eq_zero_or_pos (TERMS_PER_BATCH / cores) with h | h
    · exfalso
      have : TERMS_PER_BATCH = 0 := by rw [← hmul, h, Nat.zero_mul]
      simp [TERMS_PER_BATCH] at this
    · exact h
  refine ⟨by simp [batchList], ?_, ?_, ?_⟩
  · intro p hp
    rcases (batchList_mem k cores p).1 hp with ⟨i, _, rfl⟩
    rfl
  · intro x
    constructor
    · rintro ⟨p, hp, hle, hlt⟩
      rcases (batchList_mem k cores p).1 hp with ⟨i, hi, rfl⟩
      simp only at hle hlt
      have hib : i * (TERMS_PER_BATCH / cores) + TERMS_PER_BATCH / cores
          ≤ cores * (TERMS_PER_BATCH / cores) := by
        have h1 : (i + 1) * (TERMS_PER_BATCH / cores) ≤ cores * (TERMS_PER_BATCH / cores) :=
          Nat.mul_le_mul_right (TERMS_PER_BATCH / cores) hi
        have h2 : (i + 1) * (TERMS_PER_BATCH / cores)
            = i * (TERMS_PER_BATCH / cores) + TERMS_PER_BATCH / cores := by ring
        omega
      omega
    · rintro ⟨hle, hlt⟩
      have hxk : x - k < cores * (TERMS_PER_BATCH / cores) := by omega
      have hdm := Nat.div_add_mod (x - k) (TERMS_PER_BATCH / cores)
      rw [Nat.mul_comm] at hdm
      have hmo : (x - k) % (TERMS_PER_BATCH / cores) < TERMS_PER_BATCH / cores :=
        Nat.mod_lt _ hbspos
      refine ⟨(k + (x - k) / (TERMS_PER_BATCH / cores) * (TERMS_PER_BATCH / cores),
        TERMS_PER_BATCH / cores), ?_, ?_, ?_⟩
      · rw [batchList_mem]
        exact ⟨(x - k) / (TERMS_PER_BATCH / cores),
          (Nat.div_lt_iff_lt_mul hbspos).2 hxk, rfl⟩
      · simp only
        omega
      · simp only
        omega
  · unfold batchList
    rw [List.pairwise_map]
    have hr : List.Pairwise (· < ·) (List.range cores) := List.pairwise_lt_range cores
    refine hr.imp ?_
    intro i j hij
    simp only
    have h1 : (i + 1) * (TERMS_PER_BATCH / cores) ≤ j * (TERMS_PER_BATCH / cores) :=
      Nat.mul_le_mul_right (TERMS_PER_BATCH / cores) hij
    have h2 : (i + 1) * (TERMS_PER_BATCH / cores)
        = i * (TERMS_PER_BATCH / cores) + TERMS_PER_BATCH / cores := by ring
    omega

/-- Witness for batch_partition at k = 0, cores = 3. -/
theorem batch_partition_witness :
    0 < 3 ∧ TERMS_PER_BATCH % 3 = 0 ∧
    ((batchList 0 3).length = 3
      ∧ (∀ p ∈ batchList 0 3, p.2 = TERMS_PER_BATCH / 3)
      ∧ (∀ x : ℕ, (∃ p ∈ batchList 0 3, p.1 ≤ x ∧ x < p.1 + p.2)
          ↔ 0 ≤ x ∧ x < 0 + TERMS_PER_BATCH)
      ∧ List.Pairwise (fun p q : ℕ × ℕ => p.1 + p.2 ≤ q.1) (batchList 0 3)) :=
  ⟨by decide, by decide, batch_partition 0 3 (by decide) (by decide)⟩

/-- The persisted artifacts of compute_pi_mpmath.py: PROGRESS_FILE holds the
term count k, SUM_FILE holds the pickled running total, and PI_VALUE_FILE
holds the rendered pi estimate.  A field is none when the file is absent.
The pi view is the deterministic rendering C / total with
C = 426880 * sqrt(10005) irrational, so the artifact is modelled by the
running total the rendering is derived from. -/
structure FS where
  progress : Option ℕ
  sumFile : Option ℚ
  piView : Option ℚ

/-- get_saved_progress() from compute_pi_mpmath.py: k defaults to 0 when the
progress file is absent, total defaults to mpf(0) when the sum file is
absent, each independently. -/
def get_saved_progress (fs : FS) : ℕ × ℚ :=
  (fs.progress.getD 0, fs.sumFile.getD 0)

/-- The periodic save block of compute_pi (lines 91-101 of
compute_pi_mpmath.py): writes the pi view, the progress record and the sum
record, each fully overwriting the prior file. -/
def periodicSave (k : ℕ) (total : ℚ) (_fs : FS) : FS :=
  { progress := some k, sumFile := some total, piView := some total }

/-- The KeyboardInterrupt handler of compute_pi (lines 105-111 of
compute_pi_mpmath.py): writes the progress record and the sum record only,
then returns normally, so the process exits with status 0. -/
def handleInterrupt (k : ℕ) (total : ℚ) (fs : FS) : FS × ℕ :=
  ({ fs with progress := some k, sumFile := some total }, 0)

/-- The module-level validation of compute_pi_mpmath.py (lines 18-19):
raise ValueError when TERMS_PER_BATCH % CORES != 0. -/
def checkBatchConfig (tpb cores : ℕ) : Except String Unit :=
  if tpb % cores ≠ 0 then
    Except.error "TERMS_PER_BATCH must be divisible by CORES"
  else Except.ok ()

/-- Startup of the engine: the divisibility validation runs at module load,
before get_saved_progress or any term computation; an error short-circuits
everything after it. -/
def engineStartup (tpb cores : ℕ) (fs : FS) : Except String (ℕ × ℚ) :=
  match checkBatchConfig tpb cores with
  | Except.error e => Except.error e
  | Except.ok _ => Except.ok (get_saved_progress fs)

lemma runRounds_add (cores r1 r2 : ℕ) : ∀ st : ℕ × ℚ,
    runRounds cores (r1 + r2) st = runRounds cores r2 (runRounds cores r1 st) := by
  induction r1 with
  | zero => intro st; simp [runRounds]
  | succ m ih =>
    intro st
    have h : m + 1 + r2 = (m + r2) + 1 := by omega
    rw [h]
    show runRounds cores (m + r2) (roundStep cores st) = _
    rw [ih (roundStep cores st)]
    rfl

/-- C4: for any worker count dividing TERMS_PER_BATCH and any prefix of r1
rounds out of r1 + r2 total rounds, computing everything uninterrupted
gives exactly the same state as computing the prefix, saving the snapshot,
restoring it through get_saved_progress, and computing the remaining r2
rounds.  In the exact-rational model the equality is exact. -/
theorem resume_equivalence (cores r1 r2 : ℕ) (hW : 0 < cores)
    (hdvd : TERMS_PER_BATCH % cores = 0) :
    runRounds cores r2
        (get_saved_progress
          (periodicSave (runRounds cores r1 (0, 0)).1 (runRounds cores r1 (0, 0)).2
            ⟨none, none, none⟩))
      = runRounds cores (r1 + r2) (0, 0) := by
  have h1 : get_saved_progress
      (periodicSave (runRounds cores r1 (0, 0)).1 (runRounds cores r1 (0, 0)).2
        ⟨none, none, none⟩)
      = runRounds cores r1 (0, 0) := rfl
  rw [h1]
  exact (runRounds_add cores r1 r2 (0, 0)).symm

/-- Witness for resume_equivalence at cores = 3, r1 = 1, r2 = 1. -/
theorem resume_equivalence_witness :
    0 < 3 ∧ TERMS_PER_BATCH % 3 = 0 ∧
    runRounds 3 1
        (get_saved_progress
          (periodicSave (runRounds 3 1 (0, 0)).1 (runRounds 3 1 (0, 0)).2
            ⟨none, none, none⟩))
      = runRounds 3 (1 + 1) (0, 0) :=
  ⟨by decide, by decide, resume_equivalence 3 1 1 (by decide) (by decide)⟩

/-- C7: whenever TERMS_PER_BATCH is not evenly divisible by the worker
count, the startup validation fails with a configuration error and the
startup sequence aborts before any snapshot load or term computation. -/
theorem divisibility_validation (tpb cores : ℕ) (h : tpb % cores ≠ 0) :
    checkBatchConfig tpb cores
        = Except.error "TERMS_PER_BATCH must be divisible by CORES"
    ∧ ∀ fs : FS, engineStartup tpb cores fs
        = Except.error "TERMS_PER_BATCH must be divisible by CORES" := by
  have hc : checkBatchConfig tpb cores
      = Except.error "TERMS_PER_BATCH must be divisible by CORES" := by
    simp [checkBatchConfig, h]
  refine ⟨hc, fun fs => ?_⟩
  simp [engineStartup, hc]

/-- Witness for divisibility_validation at TERMS_PER_BATCH = 900, 7 cores. -/
theorem divisibility_validation_witness :
    TERMS_PER_BATCH % 7 ≠ 0
    ∧ checkBatchConfig TERMS_PER_BATCH 7
        = Except.error "TERMS_PER_BATCH must be divisible by CORES"
    ∧ engineStartup TERMS_PER_BATCH 7 ⟨none, none, none⟩
        = Except.error "TERMS_PER_BATCH must be divisible by CORES" :=
  ⟨by decide, (divisibility_validation TERMS_PER_BATCH 7 (by decide)).1,
    (divisibility_validation TERMS_PER_BATCH 7 (by decide)).2 ⟨none, none, none⟩⟩

/-- C8 counterexample: on interruption the final save writes only the
progress and sum records; with no prior pi view on disk, the pi view
artifact is still absent after the interrupt handler runs, so the final
save does not persist all three artifacts. -/
theorem interrupt_save_omits_pi_view :
    (handleInterrupt 900 (13591409 : ℚ) ⟨none, none, none⟩).1.piView = none := rfl

/-- C8 amended: on an external interruption signal the program performs one
final save that persists the progress record and the running-total record
from the current in-memory snapshot, leaves the pi view artifact untouched
(it is written only by the periodic save), and terminates with exit
status 0. -/
theorem interrupt_save_behavior (k : ℕ) (total : ℚ) (fs : FS) :
    (handleInterrupt k total fs).1.progress = some k
    ∧ (handleInterrupt k total fs).1.sumFile = some total
    ∧ (handleInterrupt k total fs).1.piView = fs.piView
    ∧ (handleInterrupt k total fs).2 = 0
    ∧ periodicSave k total fs
        = { progress := some k, sumFile := some total, piView := some total } :=
  ⟨rfl, rfl, rfl, rfl, rfl⟩

end PiEngine

namespace PiPy

/-- chudnovsky_term(k) from pi.py: the direct factorial form
(-1)^k * (6k)! * (13591409 + 545140134 k)
/ ((3k)! * (k!)^3 * 640320^(3k)). -/
def chudnovsky_term (k : ℕ) : ℚ :=
  ((-1 : ℚ) ^ k * (Nat.factorial (6 * k) : ℚ) * ((13591409 : ℚ) + 545140134 * (k : ℚ))) /
    ((Nat.factorial (3 * k) : ℚ) * (Nat.factorial k : ℚ) ^ 3 * (640320 : ℚ) ^ (3 * k))

/-- compute_terms(start_k, end_k) from pi.py: the sum of chudnovsky_term(k)
for k in range(start_k, end_k). -/
def compute_terms (start_k end_k : ℕ) : ℚ :=
  ((List.range' start_k (end_k - start_k)).map chudnovsky_term).sum

/-- get_saved_progress() from pi.py: the value k from the progress file, or
0 when the file is absent. -/
def get_saved_progress (progressFile : Option ℕ) : ℕ :=
  progressFile.getD 0

/-- The initialization of compute_pi(start_k, ...) in pi.py: k = start_k and
total = Decimal(0), with total then overwritten by the sum-file content
whenever that file exists, regardless of start_k. -/
def compute_pi_init (start_k : ℕ) (sumFile : Option ℚ) : ℕ × ℚ :=
  (start_k, sumFile.getD 0)

end PiPy

/-- C10: in pi.py, compute_pi initializes its running total solely from the
sum file (or 0 if absent), independently of start_k; in particular the
call compute_pi(start_k = 0) with a prior sum file present starts with a
running total different from the sum of the terms in [0, 0), which is 0. -/
theorem init_total_ignores_start_k :
    (∀ s1 s2 : ℕ, ∀ sf : Option ℚ,
      (PiPy.compute_pi_init s1 sf).2 = (PiPy.compute_pi_init s2 sf).2)
    ∧ (∀ s : ℕ, (PiPy.compute_pi_init s none).2 = 0)
    ∧ (∀ (s : ℕ) (t : ℚ), (PiPy.compute_pi_init s (some t)).2 = t)
    ∧ (PiPy.compute_pi_init 0 (some 1)).2 ≠ PiPy.compute_terms 0 0 := by
  refine ⟨fun _ _ _ => rfl, fun _ => rfl, fun _ _ => rfl, ?_⟩
  simp [PiPy.compute_pi_init, PiPy.compute_terms]

/-- C6: the checkpoint load returns the identity snapshot (0, 0) when no
artifacts exist, and treats a missing progress record and a missing sum
record independently, defaulting each absent artifact to its identity
value; pi.py's progress loader likewise defaults to 0 on absence. -/
theorem checkpoint_load_defaults :
    PiEngine.get_saved_progress ⟨none, none, none⟩ = (0, 0)
    ∧ (∀ pv, PiEngine.get_saved_progress ⟨none, none, pv⟩ = (0, 0))
    ∧ (∀ (t : ℚ) pv, PiEngine.get_saved_progress ⟨none, some t, pv⟩ = (0, t))
    ∧ (∀ (p : ℕ) pv, PiEngine.get_saved_progress ⟨some p, none, pv⟩ = (p, 0))
    ∧ PiPy.get_saved_progress none = 0 :=
  ⟨rfl, fun _ => rfl, fun _ _ => rfl, fun _ _ => rfl, rfl⟩

lemma range'_zero_two : List.range' 0 2 = [0, 1] := rfl

lemma recursive_0_2_value :
    PiEngine.chudnovsky_term_recursive 0 2
      = 13591409 - 5 * 558731543 / 262537412640768000 := by
  show (List.foldl PiEngine.accumStep (0, PiEngine.warmup 0) (List.range' 0 (2 - 0))).1 = _
  rw [show (2 - 0 : ℕ) = 2 from rfl, range'_zero_two]
  show (PiEngine.accumStep (PiEngine.accumStep (0, PiEngine.warmup 0) 0) 1).1 = _
  simp only [PiEngine.accumStep, PiEngine.warmup, PiEngine.stepFactor,
    PiEngine.L, PiEngine.X3, PiEngine.X, List.range, List.range.loop, List.foldl]
  norm_num

lemma factorial_0_2_value :
    PiPy.compute_terms 0 2
      = 13591409 - 120 * 558731543 / 262537412640768000 := by
  show (List.map PiPy.chudnovsky_term (List.range' 0 (2 - 0))).sum = _
  rw [show (2 - 0 : ℕ) = 2 from rfl, range'_zero_two]
  simp only [List.map, List.sum_cons, List.sum_nil, PiPy.chudnovsky_term]
  norm_num [Nat.factorial]

/-- C3: the recurrence-based evaluation disagrees with the direct
factorial-based evaluation from the very second term onward: they agree on
one term (both give 13591409), but on the range [0, 2) the recurrence
yields 13591409 - 5 * 558731543 / 640320^3 while the factorial oracle
yields 13591409 - 120 * 558731543 / 640320^3 -- the code's multiplicative
update is 24 times too small, because the Chudnovsky recurrence divisor is
(k+1)^3 * 640320^3 / 24, not (k+1)^3 * 640320^3. -/
theorem recurrence_disagrees_with_factorial :
    PiEngine.chudnovsky_term_recursive 0 1 = PiPy.compute_terms 0 1
    ∧ PiEngine.chudnovsky_term_recursive 0 2
        = 13591409 - 5 * 558731543 / 262537412640768000
    ∧ PiPy.compute_terms 0 2
        = 13591409 - 120 * 558731543 / 262537412640768000
    ∧ PiEngine.chudnovsky_term_recursive 0 2 ≠ PiPy.compute_terms 0 2 := by
  refine ⟨?_, recursive_0_2_value, factorial_0_2_value, ?_⟩
  · show (List.foldl PiEngine.accumStep (0, PiEngine.warmup 0) (List.range' 0 (1 - 0))).1
      = (List.map PiPy.chudnovsky_term (List.range' 0 (1 - 0))).sum
    rw [show (1 - 0 : ℕ) = 1 from rfl, show List.range' 0 1 = [0] from rfl]
    simp only [PiEngine.accumStep, PiEngine.warmup, PiEngine.stepFactor,
      PiEngine.L, PiEngine.X3, PiEngine.X, List.range, List.range.loop, List.foldl,
      List.map, List.sum_cons, List.sum_nil, PiPy.chudnovsky_term]
    norm_num [Nat.factorial]
  · rw [recursive_0_2_value, factorial_0_2_value]
    norm_num
